import Mathlib

/-!
Verification of the Arbitcrypto graph builder and dashboard run loop.

Shallow embedding of `src/trading/algorithms/utils.py` and
`src/backend/web/pages/dashboard.py`, with theorems settling the
specification claims about them.

Conventions of the embedding:
* Python `float` results of `np.log` are modelled symbolically by `NpFloat`:
  `np.log x` for `x > 0` is the (injectively represented) value `ln x`;
  `np.log 0 = -inf`; `np.log` of a negative number is `nan`.
* A quote source (`Exchanger.exchange`) is a function returning `Option ℚ`;
  `none` models a lookup that raises or returns an undefined value, which in
  Python propagates as an exception out of `assets_to_edges_list` — hence the
  builder returns `Except Unit _`.
* Python `dict` / the dash `FileSystemStore` are association lists where
  `set` overwrites in place or appends, and reading a missing key yields
  the Python value `None`.
-/

/-- An asset `(platform, symbol)`, from `trading/asset.py` (value object). -/
structure Asset where
  platform : String
  symbol : String
deriving DecidableEq, Repr

/-- Symbolic model of a numpy double as produced by `np.log`:
`logOf x` stands for the real number `ln x` (only ever built with `x > 0`,
on which `ln` is injective), `negInf` for `-inf`, `nan` for `nan`. -/
inductive NpFloat where
  | logOf (x : ℚ)
  | negInf
  | nan
deriving DecidableEq, Repr

/-- Model of `np.log` on a rational input: the log of a positive number, `-inf` at `0`,
`nan` on negatives (numpy warns and returns, it does not raise). -/
def npLog (x : ℚ) : NpFloat :=
  if 0 < x then .logOf x else if x = 0 then .negInf else .nan

/-- A degenerate (undefined-log) weight: `np.log` of a non-positive rate. -/
def NpFloat.degenerate : NpFloat → Bool
  | .logOf _ => false
  | .negInf => true
  | .nan => true

/-- An edge of the arbitrage graph, from `trading/algorithms/network.py`
(as constructed in `utils.py`): endpoints, their node indices and the
`np.log` weight. -/
structure Edge where
  from_asset : Asset
  from_node : ℕ
  to_asset : Asset
  to_node : ℕ
  weight : NpFloat
deriving DecidableEq, Repr

/-- A quote source: `exchange(timestamp, from_asset, to_asset, timespan)`;
`none` models a lookup that fails (raises) or yields an undefined rate. -/
def Exchanger : Type := ℕ → Asset → Asset → ℕ → Option ℚ

/-- The Python dict key `f'{platform}_{symbol}'` used for the node mapping. -/
def assetKey (a : Asset) : String :=
  a.platform ++ "_" ++ a.symbol

/-- Python `dict` assignment `d[k] = v`: overwrite in place if the key is
present, else append (insertion order preserved). -/
def dictInsert : List (String × ℕ) → String → ℕ → List (String × ℕ)
  | [], k, v => [(k, v)]
  | (k', v') :: rest, k, v =>
    if k' = k then (k, v) :: rest else (k', v') :: dictInsert rest k v

/-- Python `dict` lookup `d.get(k)`. -/
def dictGet : List (String × ℕ) → String → Option ℕ
  | [], _ => none
  | (k', v) :: rest, k => if k' = k then some v else dictGet rest k

/-- Inner loop of `assets_to_edges_list` (utils.py:18–24): for a fixed
`(from_node, from_asset)`, walk `enumerate(assets)`; skip the self pair and
pairs where both platform and symbol differ; otherwise append an edge whose
weight is `np.log` of the quoted rate. A failed quote lookup raises, aborting
the whole call. -/
def innerLoop (fromN : ℕ) (fromA : Asset) (ts tsp : ℕ) (ex : Exchanger) :
    List (ℕ × Asset) → Except Unit (List Edge)
  | [] => .ok []
  | (toN, toA) :: rest =>
    if fromN = toN then
      innerLoop fromN fromA ts tsp ex rest
    else if fromA.platform ≠ toA.platform ∧ fromA.symbol ≠ toA.symbol then
      innerLoop fromN fromA ts tsp ex rest
    else
      match ex ts fromA toA tsp with
      | none => .error ()
      | some r =>
        (innerLoop fromN fromA ts tsp ex rest).map
          (fun es => ⟨fromA, fromN, toA, toN, npLog r⟩ :: es)

/-- Outer loop of `assets_to_edges_list` (utils.py:16–24): for each
`(from_node, from_asset)` of `enumerate(assets)`, record the node mapping
entry and extend the edge list with the inner loop's edges. -/
def outerLoop (assets : List Asset) (ts tsp : ℕ) (ex : Exchanger) :
    List (ℕ × Asset) → List Edge → List (String × ℕ) →
    Except Unit (List Edge × List (String × ℕ))
  | [], edges, mapping => .ok (edges, mapping)
  | (fromN, fromA) :: rest, edges, mapping =>
    let mapping' := dictInsert mapping (assetKey fromA) fromN
    match innerLoop fromN fromA ts tsp ex assets.enum with
    | .error _ => .error ()
    | .ok newEdges => outerLoop assets ts tsp ex rest (edges ++ newEdges) mapping'

/-- Embedding of `assets_to_edges_list(assets, timestamp, exchanger, timespan)`
(utils.py:10–26). Returns the edge list and the
`platform_symbol ↦ index` node mapping; `.error ()` models the exception
raised when a quote lookup fails. -/
def assets_to_edges_list (assets : List Asset) (timestamp : ℕ) (ex : Exchanger)
    (timespan : ℕ) : Except Unit (List Edge × List (String × ℕ)) :=
  outerLoop assets timestamp timespan ex assets.enum [] []

/-- Embedding of `nodes_to_assets(nodes, assets)` (utils.py:29–33): index `assets` at each
node; an out-of-range index raises (`none`). -/
def nodes_to_assets (nodes : List ℕ) (assets : List Asset) :
    Option (List Asset) :=
  match nodes with
  | [] => some []
  | n :: rest => do
      let a ← assets[n]?
      let res ← nodes_to_assets rest assets
      pure (a :: res)

/-- Whether the ordered pair `(p, q)` of enumerated assets gets an edge:
distinct indices and not (both platform and symbol differ). -/
def eligiblePair (p q : ℕ × Asset) : Bool :=
  p.1 ≠ q.1 ∧ (p.2.platform = q.2.platform ∨ p.2.symbol = q.2.symbol)

/-- The edge built for the enumerated pair `(p, q)` when its quote lookup
succeeds (utils.py:23–24); the `getD 0` default is only read under `isSome`. -/
def mkEdge (ts tsp : ℕ) (ex : Exchanger) (p q : ℕ × Asset) : Edge :=
  ⟨p.2, p.1, q.2, q.1, npLog ((ex ts p.2 q.2 tsp).getD 0)⟩

/-- Closed form of the produced edge list when every eligible lookup
succeeds: one edge per enumerated pair passing the loop's filters. -/
def edgesSpec (assets : List Asset) (ts tsp : ℕ) (ex : Exchanger) : List Edge :=
  assets.enum.flatMap fun p =>
    (assets.enum.filter (eligiblePair p)).map (mkEdge ts tsp ex p)

/-- Closed form of the node mapping: fold the dict assignments over the
enumeration. -/
def nodesMappingSpec (assets : List Asset) : List (String × ℕ) :=
  assets.enum.foldl (fun m p => dictInsert m (assetKey p.2) p.1) []

/-- A Python value as stored in the dash `FileSystemStore` session cache:
`none` is Python `None` (also what `get` returns for a missing key), `num`
a stored number (the progress), `data` an opaque payload (report
dataframes, graph-history lists, price series). -/
inductive PyVal where
  | none
  | num (q : ℚ)
  | data (n : ℕ)
deriving DecidableEq, Repr

/-- The per-session `FileSystemStore`, as an insertion-ordered key-value
list. -/
abbrev Cache : Type := List (String × PyVal)

/-- Operation `fsc.get(key)`: the stored value, or Python `None` for a missing key. -/
def cacheGet : Cache → String → PyVal
  | [], _ => .none
  | (k', v) :: rest, k => if k' = k then v else cacheGet rest k

/-- Operation `fsc.set(key, value)`: overwrite in place, or append a new key. -/
def cacheSet : Cache → String → PyVal → Cache
  | [], k, v => [(k, v)]
  | (k', v') :: rest, k, v =>
    if k' = k then (k, v) :: rest else (k', v') :: cacheSet rest k v

/-- Operation `fsc.clear()`: remove every stored key. -/
def cacheClear (_ : Cache) : Cache := []

/-- Embedding of `reset_cache(fsc)` (dashboard.py:75–80): read `graphs_history`, clear
the store, store `None` under `report_table` and `run_progress`, and write
the saved `graphs_history` back. -/
def reset_cache (c : Cache) : Cache :=
  let graphs_history := cacheGet c "graphs_history"
  let c1 := cacheClear c
  let c2 := cacheSet c1 "report_table" .none
  let c3 := cacheSet c2 "run_progress" .none
  cacheSet c3 "graphs_history" graphs_history

/-- The progress value published after a step whose current timestamp is
`t` (dashboard.py:175–176): `(t − start) / (end − start) * 100`, with no
clamping at the publishing site. -/
def run_progress_value (start_ts end_ts t : ℤ) : ℚ :=
  ((t : ℚ) - (start_ts : ℚ)) / ((end_ts : ℚ) - (start_ts : ℚ)) * 100

/-- The value the poller renders (dashboard.py:215): `min(value, 100)`. -/
def shown_progress (v : ℚ) : ℚ := min v 100

/-- Clamping to the interval `[0, 100]`, as the claim words it. -/
def clampProgress (v : ℚ) : ℚ := max 0 (min v 100)

/-- Embedding of `update_run_progress` (dashboard.py:207–219): read `run_progress`; on
`None` reset the cache and render a progress bar at `0`; otherwise cap the
value at `100`, reset the cache when the capped value is exactly `100`,
and render the capped value. A non-numeric stored value would make
Python's `min` raise (`.error ()`). The result pair is (cache state after
the callback, value rendered into the progress bar). -/
def update_run_progress (c : Cache) : Except Unit (Cache × ℚ) :=
  match cacheGet c "run_progress" with
  | .none => .ok (reset_cache c, 0)
  | .num v =>
    let v' := min v 100
    if v' = 100 then .ok (reset_cache c, v') else .ok (c, v')
  | .data _ => .error ()

/-- One yielded step as consumed by the dashboard loop
(dashboard.py:158–176): the step's current timestamp (the yielded
`end_timestamp` field) and its report / prices / graphs-history payloads. -/
structure StepResult where
  end_timestamp : ℤ
  report : PyVal
  prices : PyVal
  graphs_history : PyVal

/-- The dashboard's consumption of one yielded step (dashboard.py:169–176):
store the payloads, then publish `(t − start) / (end − start) * 100` under
`run_progress`. -/
def publish_step (start_ts end_ts : ℤ) (c : Cache) (r : StepResult) : Cache :=
  cacheSet (cacheSet (cacheSet (cacheSet c "graphs_history" r.graphs_history)
      "report_table" r.report) "prices" r.prices)
    "run_progress" (.num (run_progress_value start_ts end_ts r.end_timestamp))

/-- Modelled from the spec: the strategy driver (`name_to_strategy(...)`,
whose code is not under `src/`) steps timestamps "from start to end
advancing by primary granularity" (§4.4), with the final step at `end`
("final progress forced to 100", §4.4; §8 scenario: 0..100 by 25 gives the
five steps 0, 25, 50, 75, 100). -/
def stepTimestamps (start_ts end_ts : ℤ) (g : ℕ) : List ℤ :=
  ((List.range ((end_ts - start_ts).toNat / g)).map
      (fun i : ℕ => start_ts + (i : ℤ) * (g : ℤ))) ++ [end_ts]

/-- The dashboard loop over the yielded steps: publish each one; the second
component is the sequence of published progress values, in step order. -/
def runSteps (start_ts end_ts : ℤ) (payload : ℤ → PyVal × PyVal × PyVal) :
    List ℤ → Cache → Cache × List ℚ
  | [], c => (c, [])
  | t :: rest, c =>
    let pl := payload t
    let c' := publish_step start_ts end_ts c ⟨t, pl.1, pl.2.1, pl.2.2⟩
    let res := runSteps start_ts end_ts payload rest c'
    (res.1, run_progress_value start_ts end_ts t :: res.2)

/-- Outcome of one `update_report_state` invocation: the run raised before
any step (`failed`, carrying the cache as the exception propagates), or ran
to completion (final cache and the published progress sequence). -/
inductive RunOutcome where
  | failed (c : Cache)
  | completed (c : Cache) (progressLog : List ℚ)
deriving Repr

/-- Embedding of `update_report_state` (dashboard.py:104–183), restricted to the run
state it drives: reset the session cache (line 139), parse the portfolio
(`json.loads`, line 164 — `none` models a malformed specification, which
raises before the first step), then drive the strategy generator and
publish each yielded step. Modelled from the spec: the strategy itself
(not under `src/`) validates the time range — "`end_timestamp` must be
strictly greater than `start_timestamp` ... or the run fails fast with a
validation error" (§6, §7) — before yielding any step, and yields one step
per timestamp of `stepTimestamps`. -/
def update_report_state (portfolio? : Option PyVal) (start_ts end_ts : ℤ)
    (g : ℕ) (payload : ℤ → PyVal × PyVal × PyVal) (c : Cache) : RunOutcome :=
  let c0 := reset_cache c
  match portfolio? with
  | Option.none => .failed c0
  | some _ =>
    if end_ts ≤ start_ts then .failed c0
    else
      let res := runSteps start_ts end_ts payload
        (stepTimestamps start_ts end_ts g) c0
      .completed res.1 res.2

theorem eligiblePair_iff (p q : ℕ × Asset) :
    eligiblePair p q = true ↔
      p.1 ≠ q.1 ∧ (p.2.platform = q.2.platform ∨ p.2.symbol = q.2.symbol) := by
  simp [eligiblePair]

theorem innerLoop_ok (fromN : ℕ) (fromA : Asset) (ts tsp : ℕ) (ex : Exchanger) :
    ∀ l : List (ℕ × Asset),
    (∀ q ∈ l, eligiblePair (fromN, fromA) q = true → (ex ts fromA q.2 tsp).isSome) →
    innerLoop fromN fromA ts tsp ex l =
      .ok ((l.filter (eligiblePair (fromN, fromA))).map (mkEdge ts tsp ex (fromN, fromA)))
  | [], _ => rfl
  | (toN, toA) :: rest, h => by
    have hrest := fun q hq => h q (List.mem_cons_of_mem _ hq)
    have ih := innerLoop_ok fromN fromA ts tsp ex rest hrest
    by_cases h1 : fromN = toN
    · subst h1
      have hel : eligiblePair (fromN, fromA) (fromN, toA) = false := by
        simp [eligiblePair]
      simp [innerLoop, List.filter_cons, hel, ih]
    · by_cases h2 : fromA.platform ≠ toA.platform ∧ fromA.symbol ≠ toA.symbol
      · have hel : eligiblePair (fromN, fromA) (toN, toA) = false := by
          simp only [eligiblePair, decide_eq_false_iff_not]
          tauto
        simp [innerLoop, h1, h2, List.filter_cons, hel, ih]
      · have hel : eligiblePair (fromN, fromA) (toN, toA) = true := by
          simp only [eligiblePair, decide_eq_true_eq]
          constructor
          · exact h1
          · tauto
        have hsome := h _ (List.mem_cons_self _ _) hel
        obtain ⟨r, hr⟩ := Option.isSome_iff_exists.mp hsome
        simp [innerLoop, h1, h2, List.filter_cons, hel, ih, hr, mkEdge, Except.map]

theorem innerLoop_error (fromN : ℕ) (fromA : Asset) (ts tsp : ℕ) (ex : Exchanger) :
    ∀ l : List (ℕ × Asset), ∀ q ∈ l,
      eligiblePair (fromN, fromA) q = true → ex ts fromA q.2 tsp = none →
    innerLoop fromN fromA ts tsp ex l = .error ()
  | (toN, toA) :: rest, q, hq, hel, hnone => by
    rcases List.mem_cons.mp hq with hhead | htail
    · subst hhead
      rcases (eligiblePair_iff _ _).mp hel with ⟨hne, hshare⟩
      have h1 : ¬ fromN = toN := hne
      have h2 : ¬ (fromA.platform ≠ toA.platform ∧ fromA.symbol ≠ toA.symbol) := by
        tauto
      simp [innerLoop, h1, h2, hnone]
    · have ih := innerLoop_error fromN fromA ts tsp ex rest q htail hel hnone
      by_cases h1 : fromN = toN
      · simpa [innerLoop, h1] using ih
      · by_cases h2 : fromA.platform ≠ toA.platform ∧ fromA.symbol ≠ toA.symbol
        · simpa [innerLoop, h1, h2] using ih
        · cases hex : ex ts fromA toA tsp with
          | none => simp [innerLoop, h1, h2, hex]
          | some r => simp [innerLoop, h1, h2, hex, ih, Except.map]

theorem innerLoop_shape (fromN : ℕ) (fromA : Asset) (ts tsp : ℕ) (ex : Exchanger) :
    ∀ l : List (ℕ × Asset), ∀ es : List Edge,
      innerLoop fromN fromA ts tsp ex l = .ok es →
    ∀ e ∈ es, ∃ q ∈ l, eligiblePair (fromN, fromA) q = true ∧
      ∃ r, ex ts fromA q.2 tsp = some r ∧ e = ⟨fromA, fromN, q.2, q.1, npLog r⟩
  | [], es, hok, e, he => by
    simp only [innerLoop] at hok
    cases hok
    simp at he
  | (toN, toA) :: rest, es, hok, e, he => by
    by_cases h1 : fromN = toN
    · simp only [innerLoop, if_pos h1] at hok
      obtain ⟨q, hq, hrest⟩ := innerLoop_shape fromN fromA ts tsp ex rest es hok e he
      exact ⟨q, List.mem_cons_of_mem _ hq, hrest⟩
    · by_cases h2 : fromA.platform ≠ toA.platform ∧ fromA.symbol ≠ toA.symbol
      · simp only [innerLoop, if_neg h1, if_pos h2] at hok
        obtain ⟨q, hq, hrest⟩ := innerLoop_shape fromN fromA ts tsp ex rest es hok e he
        exact ⟨q, List.mem_cons_of_mem _ hq, hrest⟩
      · simp only [innerLoop, if_neg h1, if_neg h2] at hok
        cases hex : ex ts fromA toA tsp with
        | none => rw [hex] at hok; cases hok
        | some r =>
          rw [hex] at hok
          cases hrec : innerLoop fromN fromA ts tsp ex rest with
          | error u => rw [hrec] at hok; cases hok
          | ok es' =>
            rw [hrec] at hok
            simp only [Except.map] at hok
            cases hok
            rcases List.mem_cons.mp he with hhead | htail
            · refine ⟨(toN, toA), List.mem_cons_self _ _, ?_, r, hex, hhead⟩
              rw [eligiblePair_iff]
              constructor
              · exact h1
              · tauto
            · obtain ⟨q, hq, hrest⟩ :=
                innerLoop_shape fromN fromA ts tsp ex rest es' hrec e htail
              exact ⟨q, List.mem_cons_of_mem _ hq, hrest⟩

theorem outerLoop_ok (assets : List Asset) (ts tsp : ℕ) (ex : Exchanger) :
    ∀ l : List (ℕ × Asset), ∀ edges : List Edge, ∀ mapping : List (String × ℕ),
    (∀ p ∈ l, ∀ q ∈ assets.enum, eligiblePair p q = true → (ex ts p.2 q.2 tsp).isSome) →
    outerLoop assets ts tsp ex l edges mapping =
      .ok (edges ++ l.flatMap
             (fun p => (assets.enum.filter (eligiblePair p)).map (mkEdge ts tsp ex p)),
           l.foldl (fun m p => dictInsert m (assetKey p.2) p.1) mapping)
  | [], edges, mapping, _ => by simp [outerLoop]
  | (fromN, fromA) :: rest, edges, mapping, h => by
    have hin := innerLoop_ok fromN fromA ts tsp ex assets.enum
      (fun q hq hel => h (fromN, fromA) (List.mem_cons_self _ _) q hq hel)
    have ih := outerLoop_ok assets ts tsp ex rest
      (edges ++ (assets.enum.filter (eligiblePair (fromN, fromA))).map
        (mkEdge ts tsp ex (fromN, fromA)))
      (dictInsert mapping (assetKey fromA) fromN)
      (fun p hp => h p (List.mem_cons_of_mem _ hp))
    simp [outerLoop, hin, ih, List.append_assoc]

theorem outerLoop_error (assets : List Asset) (ts tsp : ℕ) (ex : Exchanger) :
    ∀ l : List (ℕ × Asset), ∀ edges : List Edge, ∀ mapping : List (String × ℕ),
    (∃ p ∈ l, innerLoop p.1 p.2 ts tsp ex assets.enum = .error ()) →
    outerLoop assets ts tsp ex l edges mapping = .error ()
  | [], _, _, ⟨p, hp, _⟩ => absurd hp (List.not_mem_nil p)
  | (fromN, fromA) :: rest, edges, mapping, ⟨p, hp, herr⟩ => by
    rcases List.mem_cons.mp hp with hhead | htail
    · subst hhead
      simp only [outerLoop]
      simp [herr]
    · cases hrec : innerLoop fromN fromA ts tsp ex assets.enum with
      | error u => cases u; simp [outerLoop, hrec]
      | ok es =>
        have ih := outerLoop_error assets ts tsp ex rest (edges ++ es)
          (dictInsert mapping (assetKey fromA) fromN) ⟨p, htail, herr⟩
        simp [outerLoop, hrec, ih]

theorem outerLoop_shape (assets : List Asset) (ts tsp : ℕ) (ex : Exchanger) :
    ∀ l : List (ℕ × Asset), ∀ edges E : List Edge, ∀ mapping M : List (String × ℕ),
      outerLoop assets ts tsp ex l edges mapping = .ok (E, M) →
      (∀ e ∈ E, e ∈ edges ∨ ∃ p ∈ l, ∃ q ∈ assets.enum, eligiblePair p q = true ∧
        ∃ r, ex ts p.2 q.2 tsp = some r ∧ e = ⟨p.2, p.1, q.2, q.1, npLog r⟩) ∧
      M = l.foldl (fun m p => dictInsert m (assetKey p.2) p.1) mapping
  | [], edges, E, mapping, M, hok => by
    simp only [outerLoop] at hok
    cases hok
    exact ⟨fun e he => Or.inl he, rfl⟩
  | (fromN, fromA) :: rest, edges, E, mapping, M, hok => by
    simp only [outerLoop] at hok
    cases hrec : innerLoop fromN fromA ts tsp ex assets.enum with
    | error u => simp only [hrec] at hok; cases hok
    | ok es =>
      simp only [hrec] at hok
      obtain ⟨hE, hM⟩ := outerLoop_shape assets ts tsp ex rest (edges ++ es) E
        (dictInsert mapping (assetKey fromA) fromN) M hok
      constructor
      · intro e he
        rcases hE e he with hmem | ⟨p, hp, hrest⟩
        · rcases List.mem_append.mp hmem with hmem1 | hmem2
          · exact Or.inl hmem1
          · obtain ⟨q, hq, hel, r, hr, heq⟩ :=
              innerLoop_shape fromN fromA ts tsp ex assets.enum es hrec e hmem2
            exact Or.inr ⟨(fromN, fromA), List.mem_cons_self _ _, q, hq, hel, r, hr, heq⟩
        · exact Or.inr ⟨p, List.mem_cons_of_mem _ hp, hrest⟩
      · simpa using hM

theorem assets_to_edges_list_ok (assets : List Asset) (ts tsp : ℕ) (ex : Exchanger)
    (h : ∀ p ∈ assets.enum, ∀ q ∈ assets.enum, eligiblePair p q = true →
      (ex ts p.2 q.2 tsp).isSome) :
    assets_to_edges_list assets ts ex tsp =
      .ok (edgesSpec assets ts tsp ex, nodesMappingSpec assets) := by
  simpa [assets_to_edges_list, edgesSpec, nodesMappingSpec] using
    outerLoop_ok assets ts tsp ex assets.enum [] [] h

theorem assets_to_edges_list_shape (assets : List Asset) (ts tsp : ℕ) (ex : Exchanger)
    (E : List Edge) (M : List (String × ℕ))
    (hok : assets_to_edges_list assets ts ex tsp = .ok (E, M)) :
    (∀ e ∈ E, ∃ p ∈ assets.enum, ∃ q ∈ assets.enum, eligiblePair p q = true ∧
      ∃ r, ex ts p.2 q.2 tsp = some r ∧ e = ⟨p.2, p.1, q.2, q.1, npLog r⟩) ∧
    M = nodesMappingSpec assets := by
  obtain ⟨hE, hM⟩ := outerLoop_shape assets ts tsp ex assets.enum [] E [] M hok
  refine ⟨fun e he => ?_, hM⟩
  rcases hE e he with hmem | hex
  · simp at hmem
  · exact hex

theorem dictGet_insert_same (m : List (String × ℕ)) (k : String) (v : ℕ) :
    dictGet (dictInsert m k v) k = some v := by
  induction m with
  | nil => simp [dictInsert, dictGet]
  | cons kv rest ih =>
    obtain ⟨k', v'⟩ := kv
    by_cases hk : k' = k
    · simp [dictInsert, dictGet, hk]
    · simp [dictInsert, dictGet, hk, ih]

theorem dictGet_insert_other (m : List (String × ℕ)) (k k' : String) (v : ℕ)
    (hk : k' ≠ k) : dictGet (dictInsert m k v) k' = dictGet m k' := by
  have hk' : ¬ k = k' := fun h => hk h.symm
  induction m with
  | nil =>
    simp only [dictInsert, dictGet]
    rw [if_neg hk']
  | cons kv rest ih =>
    obtain ⟨k'', v''⟩ := kv
    by_cases hk2 : k'' = k
    · subst hk2
      simp only [dictInsert, if_pos rfl, dictGet]
      rw [if_neg hk', if_neg hk']
    · simp only [dictInsert, if_neg hk2, dictGet]
      by_cases hk3 : k'' = k'
      · rw [if_pos hk3, if_pos hk3]
      · rw [if_neg hk3, if_neg hk3]
        exact ih

theorem dictGet_foldl_of_not_mem (k : String) :
    ∀ (l : List (ℕ × Asset)) (m : List (String × ℕ)),
    k ∉ l.map (fun p => assetKey p.2) →
    dictGet (l.foldl (fun m p => dictInsert m (assetKey p.2) p.1) m) k = dictGet m k
  | [], m, _ => rfl
  | p :: rest, m, hk => by
    have hk1 : k ≠ assetKey p.2 := by
      intro h
      exact hk (by simp [h])
    have hk2 : k ∉ rest.map (fun p => assetKey p.2) := by
      intro h
      exact hk (by simp [h])
    rw [List.foldl_cons,
      dictGet_foldl_of_not_mem k rest (dictInsert m (assetKey p.2) p.1) hk2,
      dictGet_insert_other m (assetKey p.2) k p.1 hk1]

theorem dictGet_foldl_nodup :
    ∀ (l : List (ℕ × Asset)) (m : List (String × ℕ)) (i : ℕ) (a : Asset),
    (l.map (fun p => assetKey p.2)).Nodup → (i, a) ∈ l →
    dictGet (l.foldl (fun m p => dictInsert m (assetKey p.2) p.1) m) (assetKey a) = some i
  | p :: rest, m, i, a, hnd, hmem => by
    rw [List.map_cons, List.nodup_cons] at hnd
    rcases List.mem_cons.mp hmem with hhead | htail
    · have hp : p = (i, a) := hhead.symm
      subst hp
      have hnot : assetKey a ∉ rest.map (fun p => assetKey p.2) := hnd.1
      rw [List.foldl_cons, dictGet_foldl_of_not_mem _ rest _ hnot]
      exact dictGet_insert_same m (assetKey a) i
    · rw [List.foldl_cons]
      exact dictGet_foldl_nodup rest _ i a hnd.2 htail

theorem mem_enum_of_lt (assets : List Asset) (i : ℕ) (hi : i < assets.length) :
    (i, assets.get ⟨i, hi⟩) ∈ assets.enum := by
  rw [List.mem_enum_iff_getElem?]
  simp [List.getElem?_eq_getElem hi]

theorem fst_eq_of_mem_enum {assets : List Asset} {p : ℕ × Asset}
    (hp : p ∈ assets.enum) : p.1 < assets.length ∧ assets.get ⟨p.1, by
      rcases List.mem_enum_iff_getElem?.mp hp with h
      exact (List.getElem?_eq_some_iff.mp h).1⟩ = p.2 := by
  have h := List.mem_enum_iff_getElem?.mp hp
  obtain ⟨hlt, heq⟩ := List.getElem?_eq_some_iff.mp h
  exact ⟨hlt, heq⟩

theorem nodup_enum (assets : List Asset) : assets.enum.Nodup :=
  List.Nodup.of_map Prod.fst (by
    rw [List.enum_map_fst]
    exact List.nodup_range _)

theorem pairwise_fst_ne_enum (assets : List Asset) :
    assets.enum.Pairwise (fun p q => p.1 ≠ q.1) := by
  have h : (assets.enum.map Prod.fst).Pairwise (· ≠ ·) := by
    rw [List.enum_map_fst]
    exact (List.nodup_range _)
  exact (List.pairwise_map.mp h)

theorem eq_of_mem_enum_fst_eq {assets : List Asset} {p q : ℕ × Asset}
    (hp : p ∈ assets.enum) (hq : q ∈ assets.enum) (h : p.1 = q.1) : p = q := by
  have hp' := List.mem_enum_iff_getElem?.mp hp
  have hq' := List.mem_enum_iff_getElem?.mp hq
  rw [h] at hp'
  rw [hp'] at hq'
  exact Prod.ext h (Option.some.inj hq')

theorem mem_edgesSpec (assets : List Asset) (ts tsp : ℕ) (ex : Exchanger)
    (i j : ℕ) (hi : i < assets.length) (hj : j < assets.length)
    (hne : i ≠ j)
    (hshare : (assets.get ⟨i, hi⟩).platform = (assets.get ⟨j, hj⟩).platform ∨
      (assets.get ⟨i, hi⟩).symbol = (assets.get ⟨j, hj⟩).symbol) :
    (⟨assets.get ⟨i, hi⟩, i, assets.get ⟨j, hj⟩, j,
      npLog ((ex ts (assets.get ⟨i, hi⟩) (assets.get ⟨j, hj⟩) tsp).getD 0)⟩ : Edge) ∈
      edgesSpec assets ts tsp ex := by
  unfold edgesSpec
  rw [List.mem_flatMap]
  refine ⟨(i, assets.get ⟨i, hi⟩), mem_enum_of_lt assets i hi, ?_⟩
  rw [List.mem_map]
  refine ⟨(j, assets.get ⟨j, hj⟩), ?_, rfl⟩
  rw [List.mem_filter]
  refine ⟨mem_enum_of_lt assets j hj, ?_⟩
  rw [eligiblePair_iff]
  exact ⟨hne, hshare⟩

theorem edgesSpec_pairs_nodup (assets : List Asset) (ts tsp : ℕ) (ex : Exchanger) :
    ((edgesSpec assets ts tsp ex).map (fun e => (e.from_node, e.to_node))).Nodup := by
  unfold edgesSpec
  rw [List.map_flatMap, List.nodup_flatMap]
  constructor
  · intro p hp
    rw [List.map_map]
    have hcomp : ((fun e : Edge => (e.from_node, e.to_node)) ∘ mkEdge ts tsp ex p) =
        fun q : ℕ × Asset => (p.1, q.1) := rfl
    rw [hcomp]
    refine List.Nodup.map_on ?_ ((nodup_enum assets).filter _)
    intro x hx y hy hxy
    have hx' := (List.mem_filter.mp hx).1
    have hy' := (List.mem_filter.mp hy).1
    have h1 : x.1 = y.1 := congrArg Prod.snd hxy
    exact eq_of_mem_enum_fst_eq hx' hy' h1
  · refine (pairwise_fst_ne_enum assets).imp ?_
    intro p q hne
    intro a ha hb
    simp only [List.map_map] at ha hb
    obtain ⟨x, _, hax⟩ := List.mem_map.mp ha
    obtain ⟨y, _, hby⟩ := List.mem_map.mp hb
    have h1 : a.1 = p.1 := by rw [← hax]; rfl
    have h2 : a.1 = q.1 := by rw [← hby]; rfl
    exact hne (h1 ▸ h2)

theorem total_of_index_total (assets : List Asset) (ts tsp : ℕ) (ex : Exchanger)
    (h : ∀ i j (hi : i < assets.length) (hj : j < assets.length), i ≠ j →
      ((assets.get ⟨i, hi⟩).platform = (assets.get ⟨j, hj⟩).platform ∨
       (assets.get ⟨i, hi⟩).symbol = (assets.get ⟨j, hj⟩).symbol) →
      (ex ts (assets.get ⟨i, hi⟩) (assets.get ⟨j, hj⟩) tsp).isSome) :
    ∀ p ∈ assets.enum, ∀ q ∈ assets.enum, eligiblePair p q = true →
      (ex ts p.2 q.2 tsp).isSome := by
  intro p hp q hq hel
  obtain ⟨hpl, hpe⟩ := fst_eq_of_mem_enum hp
  obtain ⟨hql, hqe⟩ := fst_eq_of_mem_enum hq
  rcases (eligiblePair_iff _ _).mp hel with ⟨hne, hshare⟩
  have hgoal := h p.1 q.1 hpl hql hne (by rw [hpe, hqe]; exact hshare)
  rwa [hpe, hqe] at hgoal

/-- Claim C1: For every asset list, timestamp, timespan and (total, on the
eligible pairs) quote source, `assets_to_edges_list` produces exactly one
edge for each ordered pair of assets at distinct positions sharing a
platform or a symbol — with weight `np.log` of the quoted rate — and no
self-loop edge nor an edge for a pair whose platform and symbol both
differ: every eligible pair's edge is present, the `(from_node, to_node)`
pairs of the produced edges are pairwise distinct, and every produced edge
is between distinct positions of assets sharing platform or symbol. -/
theorem C1_graph_builder_edges (assets : List Asset) (ts tsp : ℕ) (ex : Exchanger)
    (h : ∀ i j (hi : i < assets.length) (hj : j < assets.length), i ≠ j →
      ((assets.get ⟨i, hi⟩).platform = (assets.get ⟨j, hj⟩).platform ∨
       (assets.get ⟨i, hi⟩).symbol = (assets.get ⟨j, hj⟩).symbol) →
      (ex ts (assets.get ⟨i, hi⟩) (assets.get ⟨j, hj⟩) tsp).isSome) :
    ∃ edges mapping, assets_to_edges_list assets ts ex tsp = .ok (edges, mapping) ∧
      (∀ i j (hi : i < assets.length) (hj : j < assets.length), i ≠ j →
        ((assets.get ⟨i, hi⟩).platform = (assets.get ⟨j, hj⟩).platform ∨
         (assets.get ⟨i, hi⟩).symbol = (assets.get ⟨j, hj⟩).symbol) →
        ∃ r, ex ts (assets.get ⟨i, hi⟩) (assets.get ⟨j, hj⟩) tsp = some r ∧
          (⟨assets.get ⟨i, hi⟩, i, assets.get ⟨j, hj⟩, j, npLog r⟩ : Edge) ∈ edges) ∧
      ((edges.map fun e => (e.from_node, e.to_node)).Nodup) ∧
      (∀ e ∈ edges,
        ∃ (hi : e.from_node < assets.length) (hj : e.to_node < assets.length),
        e.from_asset = assets.get ⟨e.from_node, hi⟩ ∧
        e.to_asset = assets.get ⟨e.to_node, hj⟩ ∧
        e.from_node ≠ e.to_node ∧
        (e.from_asset.platform = e.to_asset.platform ∨
          e.from_asset.symbol = e.to_asset.symbol) ∧
        ∃ r, ex ts e.from_asset e.to_asset tsp = some r ∧ e.weight = npLog r) := by
  have htot := total_of_index_total assets ts tsp ex h
  refine ⟨edgesSpec assets ts tsp ex, nodesMappingSpec assets,
    assets_to_edges_list_ok assets ts tsp ex htot, ?_,
    edgesSpec_pairs_nodup assets ts tsp ex, ?_⟩
  · intro i j hi hj hne hshare
    obtain ⟨r, hr⟩ := Option.isSome_iff_exists.mp (h i j hi hj hne hshare)
    refine ⟨r, hr, ?_⟩
    have hmem := mem_edgesSpec assets ts tsp ex i j hi hj hne hshare
    rwa [hr, Option.getD_some] at hmem
  · intro e he
    obtain ⟨hE, _⟩ := assets_to_edges_list_shape assets ts tsp ex _ _
      (assets_to_edges_list_ok assets ts tsp ex htot)
    obtain ⟨p, hp, q, hq, hel, r, hr, heq⟩ := hE e he
    obtain ⟨hpl, hpe⟩ := fst_eq_of_mem_enum hp
    obtain ⟨hql, hqe⟩ := fst_eq_of_mem_enum hq
    subst heq
    rcases (eligiblePair_iff _ _).mp hel with ⟨hne, hshare⟩
    exact ⟨hpl, hql, hpe.symm, hqe.symm, hne, hshare, r, hr, rfl⟩

/-- Witness for C1 at a concrete input: two assets on the one platform `X`
and a total quote source. -/
theorem C1_graph_builder_edges_witness :
    ∃ edges mapping,
      assets_to_edges_list [Asset.mk "X" "BTC", Asset.mk "X" "ETH"] 0
        (fun _ _ _ _ => some 2) 1 = Except.ok (edges, mapping) ∧
      (⟨Asset.mk "X" "BTC", 0, Asset.mk "X" "ETH", 1, npLog 2⟩ : Edge) ∈ edges := by
  obtain ⟨edges, mapping, hok, hmem, -, -⟩ :=
    C1_graph_builder_edges [Asset.mk "X" "BTC", Asset.mk "X" "ETH"] 0 1
      (fun _ _ _ _ => some 2) (fun _ _ _ _ _ _ => rfl)
  obtain ⟨r, hr, hin⟩ := hmem 0 1 (by decide) (by decide) (by decide) (Or.inl rfl)
  cases hr
  exact ⟨edges, mapping, hok, hin⟩

/-- Claim C2, counterexample: On a non-positive rate the builder does not
omit the edge: it stores it with the degenerate weight `np.log(-1) = nan`;
and on a failed quote lookup it does not return a snapshot at all but
aborts. Both contradict the claim that the edge is omitted while the rest
of the snapshot is returned. -/
theorem C2_quote_gap_counterexample :
    assets_to_edges_list [Asset.mk "X" "BTC", Asset.mk "X" "ETH"] 0
        (fun _ _ _ _ => some (-1)) 1 =
      Except.ok ([⟨Asset.mk "X" "BTC", 0, Asset.mk "X" "ETH", 1, NpFloat.nan⟩,
                  ⟨Asset.mk "X" "ETH", 1, Asset.mk "X" "BTC", 0, NpFloat.nan⟩],
                 [("X_BTC", 0), ("X_ETH", 1)]) ∧
    NpFloat.nan.degenerate = true ∧
    assets_to_edges_list [Asset.mk "X" "BTC", Asset.mk "X" "ETH"] 0
        (fun _ _ _ _ => none) 1 = Except.error () := by
  exact ⟨rfl, rfl, rfl⟩

/-- Claim C2, amended: The builder performs no quote-gap handling: when every
eligible lookup succeeds it stores an edge with weight `np.log(rate)` for
every eligible pair — including non-positive rates, whose degenerate
weights are stored, not omitted — and when any eligible lookup fails the
whole snapshot aborts with an exception instead of returning the remaining
edges. -/
theorem C2_quote_gap_amended (assets : List Asset) (ts tsp : ℕ) (ex : Exchanger)
    (h : ∀ i j (hi : i < assets.length) (hj : j < assets.length), i ≠ j →
      ((assets.get ⟨i, hi⟩).platform = (assets.get ⟨j, hj⟩).platform ∨
       (assets.get ⟨i, hi⟩).symbol = (assets.get ⟨j, hj⟩).symbol) →
      (ex ts (assets.get ⟨i, hi⟩) (assets.get ⟨j, hj⟩) tsp).isSome) :
    (∃ edges mapping, assets_to_edges_list assets ts ex tsp = .ok (edges, mapping) ∧
      ∀ i j (hi : i < assets.length) (hj : j < assets.length), i ≠ j →
        ((assets.get ⟨i, hi⟩).platform = (assets.get ⟨j, hj⟩).platform ∨
         (assets.get ⟨i, hi⟩).symbol = (assets.get ⟨j, hj⟩).symbol) →
        ∃ r, ex ts (assets.get ⟨i, hi⟩) (assets.get ⟨j, hj⟩) tsp = some r ∧
          (⟨assets.get ⟨i, hi⟩, i, assets.get ⟨j, hj⟩, j, npLog r⟩ : Edge) ∈ edges) ∧
    (∀ ex' : Exchanger,
      (∃ i, ∃ hi : i < assets.length, ∃ j, ∃ hj : j < assets.length, i ≠ j ∧
        ((assets.get ⟨i, hi⟩).platform = (assets.get ⟨j, hj⟩).platform ∨
         (assets.get ⟨i, hi⟩).symbol = (assets.get ⟨j, hj⟩).symbol) ∧
        ex' ts (assets.get ⟨i, hi⟩) (assets.get ⟨j, hj⟩) tsp = none) →
      assets_to_edges_list assets ts ex' tsp = .error ()) := by
  constructor
  · have htot := total_of_index_total assets ts tsp ex h
    refine ⟨edgesSpec assets ts tsp ex, nodesMappingSpec assets,
      assets_to_edges_list_ok assets ts tsp ex htot, ?_⟩
    intro i j hi hj hne hshare
    obtain ⟨r, hr⟩ := Option.isSome_iff_exists.mp (h i j hi hj hne hshare)
    refine ⟨r, hr, ?_⟩
    have hmem := mem_edgesSpec assets ts tsp ex i j hi hj hne hshare
    rwa [hr, Option.getD_some] at hmem
  · rintro ex' ⟨i, hi, j, hj, hne, hshare, hnone⟩
    have herr : innerLoop i (assets.get ⟨i, hi⟩) ts tsp ex' assets.enum = .error () := by
      refine innerLoop_error i (assets.get ⟨i, hi⟩) ts tsp ex' assets.enum
        (j, assets.get ⟨j, hj⟩) (mem_enum_of_lt assets j hj) ?_ hnone
      rw [eligiblePair_iff]
      exact ⟨hne, hshare⟩
    exact outerLoop_error assets ts tsp ex' assets.enum [] []
      ⟨(i, assets.get ⟨i, hi⟩), mem_enum_of_lt assets i hi, herr⟩

/-- Witness for the amended C2 at a concrete input: a rate of `-1` yields a
stored `nan`-weight edge; a failing lookup yields an aborted snapshot. -/
theorem C2_quote_gap_amended_witness :
    (∃ edges mapping,
      assets_to_edges_list [Asset.mk "X" "BTC", Asset.mk "X" "ETH"] 0
        (fun _ _ _ _ => some (-1)) 1 = Except.ok (edges, mapping) ∧
      (⟨Asset.mk "X" "BTC", 0, Asset.mk "X" "ETH", 1, npLog (-1)⟩ : Edge) ∈ edges) ∧
    assets_to_edges_list [Asset.mk "X" "BTC", Asset.mk "X" "ETH"] 0
      (fun _ _ _ _ => none) 1 = Except.error () := by
  obtain ⟨⟨edges, mapping, hok, hall⟩, herr⟩ :=
    C2_quote_gap_amended [Asset.mk "X" "BTC", Asset.mk "X" "ETH"] 0 1
      (fun _ _ _ _ => some (-1)) (fun _ _ _ _ _ _ => rfl)
  refine ⟨⟨edges, mapping, hok, ?_⟩,
    herr (fun _ _ _ _ => none) ⟨0, by decide, 1, by decide, by decide, Or.inl rfl, rfl⟩⟩
  obtain ⟨r, hr, hin⟩ := hall 0 1 (by decide) (by decide) (by decide) (Or.inl rfl)
  cases hr
  exact hin

/-- Claim C3: When the `platform_symbol` keys of the asset list are pairwise
distinct and the call returns a snapshot, the node mapping sends each
asset's key to its position in the input list, and every edge's node
indices are the input-list positions of its endpoint assets. -/
theorem C3_node_mapping (assets : List Asset) (ts tsp : ℕ) (ex : Exchanger)
    (edges : List Edge) (mapping : List (String × ℕ))
    (hkeys : (assets.map assetKey).Nodup)
    (hok : assets_to_edges_list assets ts ex tsp = .ok (edges, mapping)) :
    (∀ i (hi : i < assets.length),
      dictGet mapping (assetKey (assets.get ⟨i, hi⟩)) = some i) ∧
    (∀ e ∈ edges,
      ∃ (hi : e.from_node < assets.length) (hj : e.to_node < assets.length),
        assets.get ⟨e.from_node, hi⟩ = e.from_asset ∧
        assets.get ⟨e.to_node, hj⟩ = e.to_asset) := by
  obtain ⟨hE, hM⟩ := assets_to_edges_list_shape assets ts tsp ex edges mapping hok
  constructor
  · intro i hi
    subst hM
    have hnd : (assets.enum.map (fun p => assetKey p.2)).Nodup := by
      have hcomp : assets.enum.map (fun p : ℕ × Asset => assetKey p.2) =
          assets.map assetKey := by
        rw [show (fun p : ℕ × Asset => assetKey p.2) = assetKey ∘ Prod.snd from rfl,
          ← List.map_map, List.enum_map_snd]
      rw [hcomp]
      exact hkeys
    exact dictGet_foldl_nodup assets.enum [] i (assets.get ⟨i, hi⟩) hnd
      (mem_enum_of_lt assets i hi)
  · intro e he
    obtain ⟨p, hp, q, hq, hel, r, hr, heq⟩ := hE e he
    obtain ⟨hpl, hpe⟩ := fst_eq_of_mem_enum hp
    obtain ⟨hql, hqe⟩ := fst_eq_of_mem_enum hq
    subst heq
    exact ⟨hpl, hql, hpe, hqe⟩

/-- Witness for C3 at a concrete input with distinct keys. -/
theorem C3_node_mapping_witness :
    dictGet [("X_BTC", 0), ("X_ETH", 1)] "X_BTC" = some 0 ∧
    dictGet [("X_BTC", 0), ("X_ETH", 1)] "X_ETH" = some 1 := by
  have hc := C3_node_mapping [Asset.mk "X" "BTC", Asset.mk "X" "ETH"] 0 1
    (fun _ _ _ _ => some 2)
    [⟨Asset.mk "X" "BTC", 0, Asset.mk "X" "ETH", 1, NpFloat.logOf 2⟩,
     ⟨Asset.mk "X" "ETH", 1, Asset.mk "X" "BTC", 0, NpFloat.logOf 2⟩]
    [("X_BTC", 0), ("X_ETH", 1)] (by decide) rfl
  exact ⟨hc.1 0 (by decide), hc.1 1 (by decide)⟩

theorem nodes_to_assets_total :
    ∀ (nodes : List ℕ) (assets : List Asset),
    (∀ n ∈ nodes, n < assets.length) →
    ∃ res, nodes_to_assets nodes assets = some res ∧
      res.length = nodes.length ∧
      ∀ i (hi : i < nodes.length) (hri : i < res.length)
        (hn : nodes.get ⟨i, hi⟩ < assets.length),
        res.get ⟨i, hri⟩ = assets.get ⟨nodes.get ⟨i, hi⟩, hn⟩
  | [], assets, _ => ⟨[], rfl, rfl, fun i hi => absurd hi (Nat.not_lt_zero i)⟩
  | n :: rest, assets, h => by
    have hn : n < assets.length := h n (List.mem_cons_self _ _)
    obtain ⟨res', hres', hlen', hget'⟩ := nodes_to_assets_total rest assets
      (fun m hm => h m (List.mem_cons_of_mem _ hm))
    refine ⟨assets.get ⟨n, hn⟩ :: res', ?_, by simpa using hlen', ?_⟩
    · simp [nodes_to_assets, List.getElem?_eq_getElem hn, hres']
    · intro i hi hri hni
      cases i with
      | zero => rfl
      | succ k =>
        exact hget' k (Nat.lt_of_succ_lt_succ hi) (Nat.lt_of_succ_lt_succ hri) hni

/-- Claim C10: For node indices all below the asset count, `nodes_to_assets`
returns a same-length list whose `i`-th element is the asset at position
`nodes[i]`; hence applying it to the endpoints of any edge produced by
`assets_to_edges_list` recovers exactly that edge's asset pair. -/
theorem C10_nodes_to_assets (nodes : List ℕ) (assets : List Asset)
    (h : ∀ n ∈ nodes, n < assets.length) :
    (∃ res, nodes_to_assets nodes assets = some res ∧
      res.length = nodes.length ∧
      ∀ i (hi : i < nodes.length) (hri : i < res.length)
        (hn : nodes.get ⟨i, hi⟩ < assets.length),
        res.get ⟨i, hri⟩ = assets.get ⟨nodes.get ⟨i, hi⟩, hn⟩) ∧
    (∀ ts tsp : ℕ, ∀ ex : Exchanger, ∀ edges : List Edge,
      ∀ mapping : List (String × ℕ),
      assets_to_edges_list assets ts ex tsp = .ok (edges, mapping) →
      ∀ e ∈ edges, nodes_to_assets [e.from_node, e.to_node] assets =
        some [e.from_asset, e.to_asset]) := by
  refine ⟨nodes_to_assets_total nodes assets h, ?_⟩
  intro ts tsp ex edges mapping hok e he
  obtain ⟨hE, _⟩ := assets_to_edges_list_shape assets ts tsp ex edges mapping hok
  obtain ⟨p, hp, q, hq, hel, r, hr, heq⟩ := hE e he
  obtain ⟨hpl, hpe⟩ := fst_eq_of_mem_enum hp
  obtain ⟨hql, hqe⟩ := fst_eq_of_mem_enum hq
  subst heq
  have h1 : assets[p.1]? = some p.2 := by
    rw [List.getElem?_eq_getElem hpl]
    exact congrArg some hpe
  have h2 : assets[q.1]? = some q.2 := by
    rw [List.getElem?_eq_getElem hql]
    exact congrArg some hqe
  simp [nodes_to_assets, h1, h2]

/-- Witness for C10 at a concrete input. -/
theorem C10_nodes_to_assets_witness :
    ∃ res, nodes_to_assets [1, 0] [Asset.mk "X" "BTC", Asset.mk "X" "ETH"] =
        some res ∧
      res.length = 2 ∧
      ∀ i (hi : i < ([1, 0] : List ℕ).length) (hri : i < res.length)
        (hn : ([1, 0] : List ℕ).get ⟨i, hi⟩ <
          ([Asset.mk "X" "BTC", Asset.mk "X" "ETH"] : List Asset).length),
        res.get ⟨i, hri⟩ =
          ([Asset.mk "X" "BTC", Asset.mk "X" "ETH"] : List Asset).get
            ⟨([1, 0] : List ℕ).get ⟨i, hi⟩, hn⟩ := by
  exact (C10_nodes_to_assets [1, 0] [Asset.mk "X" "BTC", Asset.mk "X" "ETH"]
    (by decide)).1

/-- Claim C8: `reset_cache` is idempotent — applying it twice yields exactly
the state of applying it once — and applying it to an empty or
just-cleared cache errors nowhere and leaves every key reading `None`. -/
theorem C8_reset_cache_idempotent (c : Cache) :
    reset_cache (reset_cache c) = reset_cache c ∧
    (∀ k, cacheGet (reset_cache (cacheClear c)) k = PyVal.none) ∧
    (∀ k, cacheGet (reset_cache ([] : Cache)) k = PyVal.none) := by
  refine ⟨rfl, ?_, ?_⟩
  · intro k
    show cacheGet [("report_table", PyVal.none), ("run_progress", PyVal.none),
      ("graphs_history", PyVal.none)] k = PyVal.none
    simp only [cacheGet]
    split_ifs <;> rfl
  · intro k
    show cacheGet [("report_table", PyVal.none), ("run_progress", PyVal.none),
      ("graphs_history", PyVal.none)] k = PyVal.none
    simp only [cacheGet]
    split_ifs <;> rfl

/-- Witness for C8 at a concrete cache. -/
theorem C8_reset_cache_idempotent_witness :
    reset_cache (reset_cache [("run_progress", PyVal.num 7)]) =
      reset_cache [("run_progress", PyVal.num 7)] :=
  (C8_reset_cache_idempotent [("run_progress", PyVal.num 7)]).1

/-- Claim C7, counterexample: `reset_cache` does not clear `graphs_history`:
the previous run's value is restored and still readable after the reset,
so not every component of the previous Run State is cleared. -/
theorem C7_reset_counterexample :
    cacheGet (reset_cache [("graphs_history", PyVal.data 1)]) "graphs_history" =
      PyVal.data 1 ∧ PyVal.data 1 ≠ PyVal.none :=
  ⟨rfl, by decide⟩

/-- Claim C7, amended: Starting a new run resets the session cache before the
first step: `report_table`, `run_progress` and `prices` then read `None`,
but `graphs_history` is restored to its previous value rather than
cleared; resetting an observably empty state leaves every key reading
`None` (an observable no-op). -/
theorem C7_reset_amended (c : Cache) :
    cacheGet (reset_cache c) "report_table" = PyVal.none ∧
    cacheGet (reset_cache c) "run_progress" = PyVal.none ∧
    cacheGet (reset_cache c) "prices" = PyVal.none ∧
    cacheGet (reset_cache c) "graphs_history" = cacheGet c "graphs_history" ∧
    (∀ k, cacheGet c k = PyVal.none → cacheGet (reset_cache c) k = PyVal.none) := by
  refine ⟨rfl, rfl, rfl, rfl, ?_⟩
  intro k hk
  show cacheGet [("report_table", PyVal.none), ("run_progress", PyVal.none),
    ("graphs_history", cacheGet c "graphs_history")] k = PyVal.none
  simp only [cacheGet]
  split_ifs with h1 h2 h3
  · rfl
  · rfl
  · subst h3
    exact hk
  · rfl

/-- Witness for the amended C7 at a concrete cache. -/
theorem C7_reset_amended_witness :
    cacheGet (reset_cache [("prices", PyVal.data 5)]) "prices" = PyVal.none ∧
    cacheGet (reset_cache [("prices", PyVal.data 5)]) "graphs_history" =
      cacheGet [("prices", PyVal.data 5)] "graphs_history" := by
  have h := C7_reset_amended [("prices", PyVal.data 5)]
  exact ⟨h.2.2.1, h.2.2.2.1⟩

/-- Claim C4: At every step whose timestamp `t` lies between `start` and
`end` of a run with `start < end`, the value published to the progress
sink equals `(t − start) / (end − start) × 100` clamped to `[0, 100]`, and
so does the value the poller renders. -/
theorem C4_progress_clamped (start_ts end_ts t : ℤ)
    (h1 : start_ts < end_ts) (h2 : start_ts ≤ t) (h3 : t ≤ end_ts) :
    run_progress_value start_ts end_ts t =
      clampProgress (run_progress_value start_ts end_ts t) ∧
    shown_progress (run_progress_value start_ts end_ts t) =
      clampProgress (run_progress_value start_ts end_ts t) := by
  have hden : (0 : ℚ) < (end_ts : ℚ) - (start_ts : ℚ) := by
    have h := sub_pos.mpr h1
    exact_mod_cast h
  have hnum0 : (0 : ℚ) ≤ (t : ℚ) - (start_ts : ℚ) := by
    have h := sub_nonneg.mpr h2
    exact_mod_cast h
  have hnum1 : (t : ℚ) - (start_ts : ℚ) ≤ (end_ts : ℚ) - (start_ts : ℚ) := by
    have h : t - start_ts ≤ end_ts - start_ts := sub_le_sub_right h3 _
    exact_mod_cast h
  have h0 : 0 ≤ run_progress_value start_ts end_ts t := by
    unfold run_progress_value
    exact mul_nonneg (div_nonneg hnum0 hden.le) (by norm_num)
  have h100 : run_progress_value start_ts end_ts t ≤ 100 := by
    unfold run_progress_value
    have hq : ((t : ℚ) - start_ts) / ((end_ts : ℚ) - start_ts) ≤ 1 :=
      (div_le_one hden).mpr hnum1
    calc ((t : ℚ) - start_ts) / ((end_ts : ℚ) - start_ts) * 100
        ≤ 1 * 100 := mul_le_mul_of_nonneg_right hq (by norm_num)
      _ = 100 := one_mul 100
  constructor
  · simp only [clampProgress]
    rw [min_eq_left h100, max_eq_right h0]
  · simp only [shown_progress, clampProgress]
    rw [min_eq_left h100, max_eq_right h0]

/-- Witness for C4 at a concrete step. -/
theorem C4_progress_clamped_witness :
    run_progress_value 0 10 5 = clampProgress (run_progress_value 0 10 5) ∧
    shown_progress (run_progress_value 0 10 5) =
      clampProgress (run_progress_value 0 10 5) :=
  C4_progress_clamped 0 10 5 (by decide) (by decide) (by decide)

theorem runSteps_log (start_ts end_ts : ℤ) (payload : ℤ → PyVal × PyVal × PyVal) :
    ∀ (ts : List ℤ) (c : Cache),
    (runSteps start_ts end_ts payload ts c).2 =
      ts.map (run_progress_value start_ts end_ts)
  | [], _ => rfl
  | t :: rest, c => by
    simp [runSteps, runSteps_log start_ts end_ts payload rest]

theorem run_progress_value_mono (start_ts end_ts : ℤ) (hlt : start_ts < end_ts)
    (a b : ℤ) (hab : a ≤ b) :
    run_progress_value start_ts end_ts a ≤ run_progress_value start_ts end_ts b := by
  unfold run_progress_value
  have hden : (0 : ℚ) < (end_ts : ℚ) - (start_ts : ℚ) := by
    have h := sub_pos.mpr hlt
    exact_mod_cast h
  have h : ((a : ℚ) - start_ts) ≤ ((b : ℚ) - start_ts) := by
    have h' : a - start_ts ≤ b - start_ts := sub_le_sub_right hab _
    exact_mod_cast h'
  exact mul_le_mul_of_nonneg_right
    (div_le_div_of_nonneg_right h hden.le) (by norm_num)

theorem run_progress_value_end (start_ts end_ts : ℤ) (hlt : start_ts < end_ts) :
    run_progress_value start_ts end_ts end_ts = 100 := by
  unfold run_progress_value
  have hden : ((end_ts : ℚ) - (start_ts : ℚ)) ≠ 0 := by
    have h : (0 : ℚ) < (end_ts : ℚ) - (start_ts : ℚ) := by
      have h' := sub_pos.mpr hlt
      exact_mod_cast h'
    exact ne_of_gt h
  rw [div_self hden, one_mul]

theorem stepTimestamps_chain (start_ts end_ts : ℤ) (g : ℕ)
    (hlt : start_ts < end_ts) :
    List.Chain' (· ≤ ·) (stepTimestamps start_ts end_ts g) := by
  unfold stepTimestamps
  rw [List.chain'_append]
  refine ⟨?_, List.chain'_singleton _, ?_⟩
  · rw [List.chain'_map]
    cases hn : (end_ts - start_ts).toNat / g with
    | zero => simp
    | succ m =>
      rw [List.chain'_range_succ]
      intro k _
      have hg0 : (0 : ℤ) ≤ (g : ℤ) := Int.ofNat_nonneg g
      push_cast
      nlinarith
  · intro x hx y hy
    simp only [List.head?_cons, Option.mem_def, Option.some.injEq] at hy
    subst hy
    cases hn : (end_ts - start_ts).toNat / g with
    | zero => rw [hn] at hx; simp at hx
    | succ m =>
      rw [hn, List.range_succ, List.map_append] at hx
      simp only [List.map_cons, List.map_nil, List.getLast?_concat,
        Option.mem_def, Option.some.injEq] at hx
      subst hx
      have h1 : m * g ≤ (end_ts - start_ts).toNat := by
        calc m * g ≤ (m + 1) * g := Nat.mul_le_mul_right _ (Nat.le_succ m)
          _ = ((end_ts - start_ts).toNat / g) * g := by rw [hn]
          _ ≤ (end_ts - start_ts).toNat := Nat.div_mul_le_self _ _
      have h2 : ((m * g : ℕ) : ℤ) ≤ end_ts - start_ts := by
        rw [← Int.toNat_of_nonneg (sub_nonneg.mpr hlt.le)]
        exact_mod_cast h1
      push_cast at h2 ⊢
      linarith

theorem stepTimestamps_mem_bounds (start_ts end_ts : ℤ) (g : ℕ)
    (hlt : start_ts < end_ts) :
    ∀ t ∈ stepTimestamps start_ts end_ts g, start_ts ≤ t ∧ t ≤ end_ts := by
  intro t ht
  unfold stepTimestamps at ht
  rcases List.mem_append.mp ht with hm | hm
  · obtain ⟨i, hi, rfl⟩ := List.mem_map.mp hm
    have hig : i * g ≤ (end_ts - start_ts).toNat := by
      have hi' := List.mem_range.mp hi
      calc i * g ≤ ((end_ts - start_ts).toNat / g) * g :=
            Nat.mul_le_mul_right _ hi'.le
        _ ≤ (end_ts - start_ts).toNat := Nat.div_mul_le_self _ _
    have h2 : ((i * g : ℕ) : ℤ) ≤ end_ts - start_ts := by
      rw [← Int.toNat_of_nonneg (sub_nonneg.mpr hlt.le)]
      exact_mod_cast hig
    constructor
    · have : (0 : ℤ) ≤ (i : ℤ) * (g : ℤ) := by positivity
      linarith
    · push_cast at h2
      linarith
  · simp only [List.mem_singleton] at hm
    subst hm
    exact ⟨hlt.le, le_refl _⟩

/-- Claim C5: For a valid run request, `update_report_state` completes and
the sequence of progress values it publishes across its steps is
monotonically non-decreasing, with the value published at the final step
exactly `100`. -/
theorem C5_progress_monotone_final (portfolio : PyVal) (start_ts end_ts : ℤ)
    (g : ℕ) (payload : ℤ → PyVal × PyVal × PyVal) (c : Cache)
    (hlt : start_ts < end_ts) :
    ∃ cf log,
      update_report_state (some portfolio) start_ts end_ts g payload c =
        .completed cf log ∧
      List.Chain' (· ≤ ·) log ∧
      log.getLast? = some 100 := by
  have hlog := runSteps_log start_ts end_ts payload
    (stepTimestamps start_ts end_ts g) (reset_cache c)
  refine ⟨(runSteps start_ts end_ts payload
      (stepTimestamps start_ts end_ts g) (reset_cache c)).1,
    (runSteps start_ts end_ts payload
      (stepTimestamps start_ts end_ts g) (reset_cache c)).2, ?_, ?_, ?_⟩
  · simp only [update_report_state]
    rw [if_neg (not_le.mpr hlt)]
  · rw [hlog, List.chain'_map]
    exact (stepTimestamps_chain start_ts end_ts g hlt).imp
      (fun a b hab => run_progress_value_mono start_ts end_ts hlt a b hab)
  · rw [hlog]
    unfold stepTimestamps
    rw [List.map_append]
    simp only [List.map_cons, List.map_nil]
    rw [List.getLast?_concat, run_progress_value_end start_ts end_ts hlt]

/-- Witness for C5: the spec's §8 scenario, a run from 0 to 100 with
granularity 25. -/
theorem C5_progress_monotone_final_witness :
    ∃ cf log,
      update_report_state (some (PyVal.data 0)) 0 100 25
        (fun _ => (PyVal.none, PyVal.none, PyVal.none)) [] =
        RunOutcome.completed cf log ∧
      List.Chain' (· ≤ ·) log ∧
      log.getLast? = some 100 :=
  C5_progress_monotone_final (PyVal.data 0) 0 100 25
    (fun _ => (PyVal.none, PyVal.none, PyVal.none)) [] (by decide)

/-- Claim C6: A run request with a malformed portfolio specification or an
end timestamp not strictly after the start fails before any step executes:
the outcome is `failed` with the cache exactly as `reset_cache` left it,
where the progress slot and the report slot both read `None` (no Run
State of the new run was published). -/
theorem C6_validation_fails_fast (portfolio? : Option PyVal)
    (start_ts end_ts : ℤ) (g : ℕ) (payload : ℤ → PyVal × PyVal × PyVal)
    (c : Cache) (h : portfolio? = Option.none ∨ end_ts ≤ start_ts) :
    update_report_state portfolio? start_ts end_ts g payload c =
      .failed (reset_cache c) ∧
    cacheGet (reset_cache c) "run_progress" = PyVal.none ∧
    cacheGet (reset_cache c) "report_table" = PyVal.none := by
  refine ⟨?_, rfl, rfl⟩
  rcases h with h | h
  · subst h
    rfl
  · cases portfolio? with
    | none => rfl
    | some v =>
      simp only [update_report_state]
      rw [if_pos h]

/-- Witness for C6: a malformed portfolio and an inverted time range. -/
theorem C6_validation_fails_fast_witness :
    (update_report_state Option.none 0 10 1
        (fun _ => (PyVal.none, PyVal.none, PyVal.none)) [] =
      RunOutcome.failed (reset_cache []) ∧
    cacheGet (reset_cache []) "run_progress" = PyVal.none ∧
    cacheGet (reset_cache []) "report_table" = PyVal.none) ∧
    update_report_state (some (PyVal.data 0)) 10 10 1
        (fun _ => (PyVal.none, PyVal.none, PyVal.none)) [] =
      RunOutcome.failed (reset_cache []) :=
  ⟨C6_validation_fails_fast Option.none 0 10 1
      (fun _ => (PyVal.none, PyVal.none, PyVal.none)) [] (Or.inl rfl),
    (C6_validation_fails_fast (some (PyVal.data 0)) 10 10 1
      (fun _ => (PyVal.none, PyVal.none, PyVal.none)) [] (Or.inr (le_refl _))).1⟩

/-- Claim C9, counterexample: The poller's read of an empty progress sink
and its read of a published progress of `0` render the same observable
result — a progress bar at `0` — so the two states are not distinguishable
in the poller's result. -/
theorem C9_poller_read_counterexample :
    update_run_progress ([] : Cache) = .ok (reset_cache [], 0) ∧
    update_run_progress [("run_progress", PyVal.num 0)] =
      .ok ([("run_progress", PyVal.num 0)], 0) ∧
    Except.map (fun p : Cache × ℚ => p.2) (update_run_progress ([] : Cache)) =
      Except.map (fun p : Cache × ℚ => p.2)
        (update_run_progress [("run_progress", PyVal.num 0)]) :=
  ⟨rfl, rfl, rfl⟩

/-- Claim C9, amended: The poller's read renders a progress bar at `0` both
on an empty sink (any cache whose progress slot reads `None`) and on a
published progress of `0`; the rendered results are equal, the two cases
differing only in the cache side effect (the empty-sink read resets the
cache). -/
theorem C9_poller_read_amended (c c' : Cache)
    (h : cacheGet c "run_progress" = PyVal.none)
    (h' : cacheGet c' "run_progress" = PyVal.num 0) :
    update_run_progress c = .ok (reset_cache c, 0) ∧
    update_run_progress c' = .ok (c', 0) ∧
    Except.map (fun p : Cache × ℚ => p.2) (update_run_progress c) =
      Except.map (fun p : Cache × ℚ => p.2) (update_run_progress c') := by
  have hmin : min (0 : ℚ) 100 = 0 := by norm_num
  have h1 : update_run_progress c = .ok (reset_cache c, 0) := by
    unfold update_run_progress
    rw [h]
  have h2 : update_run_progress c' = .ok (c', 0) := by
    unfold update_run_progress
    rw [h']
    show (if min (0 : ℚ) 100 = 100 then
        Except.ok (reset_cache c', min (0 : ℚ) 100)
      else Except.ok (c', min (0 : ℚ) 100)) = Except.ok (c', 0)
    rw [hmin, if_neg (by norm_num : ¬ (0 : ℚ) = 100)]
  exact ⟨h1, h2, by rw [h1, h2]; rfl⟩

/-- Witness for the amended C9 at concrete caches. -/
theorem C9_poller_read_amended_witness :
    update_run_progress ([] : Cache) = .ok (reset_cache [], 0) ∧
    update_run_progress [("run_progress", PyVal.num 0)] =
      .ok ([("run_progress", PyVal.num 0)], 0) ∧
    Except.map (fun p : Cache × ℚ => p.2) (update_run_progress ([] : Cache)) =
      Except.map (fun p : Cache × ℚ => p.2)
        (update_run_progress [("run_progress", PyVal.num 0)]) :=
  C9_poller_read_amended [] [("run_progress", PyVal.num 0)] rfl rfl
